import Mathlib

/-!
Shallow embedding of the `groupBy` function of `src/ps5.js` and proofs of the
grouping properties stated in the specification.

Modelling choices, all taken from the JavaScript source:

* JavaScript values are modelled by the inductive type `JSVal`.  Numbers are
  modelled as integers (`Int`); the group keys occurring in this repository are
  syllable counts and team names, and `toString` on an integer agrees with
  JavaScript number-to-string conversion on this range.  Objects are modelled
  as association lists of fields; object-valued *keys* are compared
  structurally here, whereas a JavaScript `Map` compares objects by reference,
  so theorems quantifying over key selectors restrict attention to inputs whose
  keys behave extensionally (which is automatic for primitive keys).
* `property` (`string|Function`) is modelled by `KeySel`: the source tests
  `typeof property !== 'function'` and otherwise wraps the value as the field
  accessor `obj => obj[propName]`; property access coerces the property name
  with `ToString` and yields `undefined` for a missing field.
* The `Map` built in the loop is modelled by an insertion-ordered association
  list (`aset` overwrites in place or appends at the end, exactly the
  observable behaviour of `Map.set`; `push` on the stored array appends).
* `Array.prototype.sort()` with no comparator sorts `undefined` elements last
  and otherwise compares the `ToString` images by UTF-16 code units; it is
  stable.  Any stable sort agreeing with that comparison models it; we use a
  stable insertion sort (`sortBy`).  String comparison is by code points,
  which coincides with UTF-16 order on the basic multilingual plane.
* The returned plain object is modelled by an association list with string
  keys (`aset` again: assignment overwrites in place, fresh keys append).
  JavaScript enumerates the properties of a plain object with the canonical
  array indices first, in ascending numeric order, and the remaining string
  keys in insertion order; `objKeys` computes that enumeration order.
-/

/-- JavaScript values, as far as `groupBy` observes them.  Numbers are
modelled as integers; see the header comment.  An object is a field list
encoded directly into the type (`objNil` / `objCons`), so that equality stays
derivable; `mkObj` builds an object from an ordinary list of fields. -/
inductive JSVal where
  | undef
  | null
  | boolean (b : Bool)
  | num (n : Int)
  | str (s : String)
  | objNil
  | objCons (name : String) (v : JSVal) (rest : JSVal)
deriving DecidableEq, Repr

/-- Builds an object value from a list of fields. -/
def mkObj : List (String × JSVal) → JSVal
  | [] => .objNil
  | (n, v) :: fs => .objCons n v (mkObj fs)

/-- JavaScript `ToString` on the modelled values.  `toString` on `Int` agrees
with JavaScript number formatting on integers of moderate size; a plain object
stringifies to `[object Object]`. -/
def jsToString : JSVal → String
  | .undef => "undefined"
  | .null => "null"
  | .boolean b => if b then "true" else "false"
  | .num n => toString n
  | .str s => s
  | .objNil => "[object Object]"
  | .objCons _ _ _ => "[object Object]"

/-- Property access `record[name]`: looks the field up in an object record and
yields `undefined` when the field is absent (or the record is not an object;
prototype properties of primitives are not modelled, no claim needs them). -/
def getField (name : String) : JSVal → JSVal
  | .objCons n v rest => if n = name then v else getField name rest
  | _ => JSVal.undef

/-- The `property` argument of `groupBy`: either a callable (`typeof property
=== 'function'`) or any other value, which the source wraps into the field
accessor `obj => obj[propName]`. -/
inductive KeySel where
  | field (name : JSVal)
  | fn (f : JSVal → JSVal)

/-- Applying the normalized key selector to a record: `property(object)` in
the loop body, after the normalization at the top of `groupBy`.  A non-callable
`property` is coerced to a property name by `ToString` during the access
`obj[propName]`. -/
def applySel : KeySel → JSVal → JSVal
  | .field p, r => getField (jsToString p) r
  | .fn f, r => f r

/-- Association-list lookup (models `Map.get` / reading an object property;
`[]` never arises for keys the code actually reads). -/
def alookup {α : Type} [DecidableEq α] {β : Type} : List (α × β) → α → Option β
  | [], _ => none
  | p :: l, k => if p.1 = k then some p.2 else alookup l k

/-- Association-list update: overwrite in place when the key is present,
append at the end otherwise.  This is the observable behaviour both of
`Map.set` and of assigning to a property of a plain object. -/
def aset {α : Type} [DecidableEq α] {β : Type} : List (α × β) → α → β → List (α × β)
  | [], k, v => [(k, v)]
  | p :: l, k, v => if p.1 = k then (k, v) :: l else p :: aset l k v

/-- Reading a group list out of the accumulating map (`groupedObjects.get`),
defaulting to the empty list for an absent key. -/
def mapGet (m : List (JSVal × List JSVal)) (k : JSVal) : List JSVal :=
  (alookup m k).getD []

/-- One iteration of the accumulation loop: ensure the group exists, then push
the record onto it. -/
def addToGroup (m : List (JSVal × List JSVal)) (k : JSVal) (r : JSVal) :
    List (JSVal × List JSVal) :=
  aset m k (mapGet m k ++ [r])

/-- The accumulation loop of `groupBy`: `for (const object of objects) ...`
over the insertion-ordered map. -/
def buildMap (sel : KeySel) (objects : List JSVal) : List (JSVal × List JSVal) :=
  objects.foldl (fun m r => addToGroup m (applySel sel r) r) []

/-- Lexicographic comparison of character lists by code point (the comparison
`Array.prototype.sort`'s default comparator applies to the `ToString` images;
code-point order agrees with UTF-16 order on the basic multilingual plane). -/
def lexLt : List Char → List Char → Bool
  | _, [] => false
  | [], _ :: _ => true
  | a :: as, b :: bs =>
    if a.toNat < b.toNat then true
    else if b.toNat < a.toNat then false
    else lexLt as bs

/-- Strict lexicographic order on strings. -/
def strLt (s t : String) : Bool := lexLt s.data t.data

/-- Lexicographic order on strings (total, since `lexLt` is trichotomous). -/
def strLe (s t : String) : Bool := !strLt t s

/-- The default comparison of `Array.prototype.sort()`: `undefined` sorts
after everything else; all other values are compared by their `ToString`
images. -/
def keyLE : JSVal → JSVal → Bool
  | .undef, b => b == .undef
  | a, .undef => !(a == .undef)
  | a, b => strLe (jsToString a) (jsToString b)

/-- Stable insertion of an element into a list sorted by `le`: the new element
goes after every element `le`-below-or-equal to it, which is how a stable sort
places an element arriving later in the input. -/
def insertLe {α : Type} (le : α → α → Bool) (a : α) : List α → List α
  | [] => [a]
  | b :: bs => if le b a then b :: insertLe le a bs else a :: b :: bs

/-- Stable insertion sort by `le`; models `Array.prototype.sort` (the
ECMAScript specification requires a stable sort consistent with the
comparator). -/
def sortBy {α : Type} (le : α → α → Bool) (l : List α) : List α :=
  l.foldl (fun acc x => insertLe le x acc) []

/-- The key-sorting step `Array.from(groupedObjects.keys()).sort()`. -/
def sortKeys (ks : List JSVal) : List JSVal := sortBy keyLE ks

/-- The `groupBy` function of `src/ps5.js`: accumulate the records into an
insertion-ordered map, sort the keys, and copy the groups into a fresh plain
object (whose keys are strings) in sorted key order. -/
def groupBy (objects : List JSVal) (property : KeySel) : List (String × List JSVal) :=
  let m := buildMap property objects
  (sortKeys (m.map Prod.fst)).foldl
    (fun res k => aset res (jsToString k) (mapGet m k)) []

/-- Canonical decimal reading of a string (only meaningful on canonical
numeral strings; used to recognise array indices). -/
def strToNat (s : String) : Nat :=
  s.data.foldl (fun a c => a * 10 + (c.toNat - 48)) 0

/-- A string is a canonical numeral exactly when it round-trips through
`strToNat`; such strings are precisely the `ToString` images of naturals. -/
def isCanonicalNat (s : String) : Bool := toString (strToNat s) == s

/-- A string is an array index when it is the canonical numeral of an integer
below 2^32 - 1; such property keys are enumerated first, in ascending numeric
order, by JavaScript objects. -/
def isArrayIndex (s : String) : Bool := isCanonicalNat s && strToNat s < 4294967295

/-- Numeric comparison of array-index strings. -/
def natLeStr (a b : String) : Bool := strToNat a ≤ strToNat b

/-- The property enumeration order of a plain JavaScript object: canonical
array indices first in ascending numeric order, then the remaining string keys
in insertion order. -/
def objKeys (o : List (String × List JSVal)) : List String :=
  sortBy natLeStr ((o.map Prod.fst).filter isArrayIndex) ++
    (o.map Prod.fst).filter (fun s => !isArrayIndex s)

/-- The group of a key: the input records whose selector value is that key, in
input order. -/
def grpOf (sel : KeySel) (S : List JSVal) (k : JSVal) : List JSVal :=
  S.filter (fun r => applySel sel r == k)

/-- Total number of records stored across all groups of a result. -/
def sumSizes (res : List (String × List JSVal)) : Nat :=
  (res.map (fun p => p.2.length)).sum

/-- Flattening a grouped result back into one sequence: groups in the object's
key enumeration order, records in their stored order. -/
def flattenResult (res : List (String × List JSVal)) : List JSVal :=
  ((objKeys res).map (fun s => (alookup res s).getD [])).flatten

/-- Key enumeration order of a `groupBy` result. -/
def resultKeys (S : List JSVal) (sel : KeySel) : List String :=
  objKeys (groupBy S sel)

/-- Records used in the concrete scenarios below. -/
def recSteve : JSVal := mkObj [("name", .str "Steve"), ("team", .str "blue")]

def recJack : JSVal := mkObj [("name", .str "Jack"), ("team", .str "red")]

def recCarol : JSVal := mkObj [("name", .str "Carol"), ("team", .str "blue")]

/-- Extending a duplicate-free list by an element unless present. -/
def addKey {α : Type} [DecidableEq α] (ss : List α) (s : α) : List α :=
  if s ∈ ss then ss else ss ++ [s]

/-- The no-collapse hypothesis: distinct group keys of the input have distinct
string images, so that the final copy into the string-keyed object identifies
no two groups.  It holds in particular for any selector producing only string
keys, or only number keys. -/
def KeyStringsInj (S : List JSVal) (sel : KeySel) : Prop :=
  ∀ r1 ∈ S, ∀ r2 ∈ S,
    jsToString (applySel sel r1) = jsToString (applySel sel r2) →
      applySel sel r1 = applySel sel r2

instance decKeyStringsInj (S : List JSVal) (sel : KeySel) : Decidable (KeyStringsInj S sel) :=
  inferInstanceAs (Decidable (∀ r1 ∈ S, ∀ r2 ∈ S,
    jsToString (applySel sel r1) = jsToString (applySel sel r2) →
      applySel sel r1 = applySel sel r2))

/-- Records of the first collapse scenario: the number key 1 and the string
key 1 have the same string image. -/
def cRec1 : JSVal := mkObj [("k", .num 1)]

def cRec2 : JSVal := mkObj [("k", .str "1")]

/-- The key of a sorted key list whose string image is a given result key
(unique under the no-collapse hypothesis). -/
def keyOfString (M : List JSVal) (s : String) : JSVal :=
  (M.find? (fun k => jsToString k == s)).getD JSVal.undef

/-- Records of the regrouping counterexample: a string key "undefined"
colliding with the undefined key of a record lacking the field, plus a third
key sorting between them. -/
def qRec1 : JSVal := mkObj [("a", .str "undefined")]

def qRec2 : JSVal := mkObj [("b", .num 1)]

def qRec3 : JSVal := mkObj [("a", .str "zebra")]

/-- Sanity check taken from the doc comment of `groupBy` in the source:
grouping Steve, Jack and Carol by team gives blue before red, blue holding
Steve then Carol. -/
theorem groupBy_team_example :
    groupBy [recSteve, recJack, recCarol] (.field (.str "team")) =
      [("blue", [recSteve, recCarol]), ("red", [recJack])] := by decide

/-- Sanity check: the empty input yields the empty grouped result. -/
theorem groupBy_empty_example :
    groupBy [] (.field (.str "team")) = [] := rfl

/-! ### Association-list lemmas -/

theorem alookup_aset_self {α β : Type} [DecidableEq α] (l : List (α × β)) (k : α) (v : β) :
    alookup (aset l k v) k = some v := by
  induction l with
  | nil => simp [aset, alookup]
  | cons p l ih =>
    by_cases h : p.1 = k
    · simp [aset, h, alookup]
    · simp [aset, h, alookup, ih]

theorem alookup_aset_ne {α β : Type} [DecidableEq α] (l : List (α × β)) (k k' : α) (v : β)
    (h : k' ≠ k) : alookup (aset l k v) k' = alookup l k' := by
  have hkk : ¬ (k = k') := fun h' => h h'.symm
  induction l with
  | nil => simp [aset, alookup, hkk]
  | cons p l ih =>
    by_cases hp : p.1 = k
    · have hpk : ¬ (p.1 = k') := by rw [hp]; exact hkk
      simp [aset, hp, alookup, hkk, hpk]
    · simp only [aset, if_neg hp, alookup]
      by_cases hp' : p.1 = k'
      · simp [hp']
      · simp [hp', ih]

theorem keys_aset {α β : Type} [DecidableEq α] (l : List (α × β)) (k : α) (v : β) :
    (aset l k v).map Prod.fst =
      if k ∈ l.map Prod.fst then l.map Prod.fst else l.map Prod.fst ++ [k] := by
  induction l with
  | nil => simp [aset]
  | cons p l ih =>
    by_cases h : p.1 = k
    · simp [aset, h]
    · simp only [aset, if_neg h, List.map_cons, ih]
      by_cases hm : k ∈ l.map Prod.fst
      · simp [hm, Ne.symm h]
      · simp [hm, Ne.symm h]

theorem mem_aset {α β : Type} [DecidableEq α] (l : List (α × β)) (k : α) (v : β) (p : α × β)
    (hp : p ∈ aset l k v) : p ∈ l ∨ p = (k, v) := by
  induction l with
  | nil => simpa [aset] using hp
  | cons q l ih =>
    by_cases h : q.1 = k
    · rcases (by simpa [aset, h] using hp : p = (k, v) ∨ p ∈ l) with h' | h'
      · exact Or.inr h'
      · exact Or.inl (List.mem_cons_of_mem _ h')
    · rcases (by simpa [aset, h] using hp : p = q ∨ p ∈ aset l k v) with h' | h'
      · exact Or.inl (by simp [h'])
      · rcases ih h' with h'' | h''
        · exact Or.inl (List.mem_cons_of_mem _ h'')
        · exact Or.inr h''

/-! ### Characterization of the accumulation loop -/

theorem mapGet_addToGroup (m : List (JSVal × List JSVal)) (k0 k : JSVal) (r : JSVal) :
    mapGet (addToGroup m k0 r) k =
      mapGet m k ++ (if k0 = k then [r] else []) := by
  by_cases h : k0 = k
  · subst h
    simp [addToGroup, mapGet, alookup_aset_self]
  · simp [addToGroup, mapGet, alookup_aset_ne _ _ _ _ (fun h' => h h'.symm), h]

theorem foldl_add_lookup (sel : KeySel) (S : List JSVal) :
    ∀ (m : List (JSVal × List JSVal)) (k : JSVal),
      mapGet (S.foldl (fun m r => addToGroup m (applySel sel r) r) m) k =
        mapGet m k ++ S.filter (fun r => applySel sel r == k) := by
  induction S with
  | nil => intro m k; simp
  | cons r S ih =>
    intro m k
    simp only [List.foldl_cons, List.filter_cons]
    rw [ih, mapGet_addToGroup]
    by_cases h : applySel sel r = k
    · simp [h, List.append_assoc]
    · simp [h]

/-- The accumulated map holds, at each key, exactly the input records with
that key, in input order. -/
theorem mapGet_buildMap (sel : KeySel) (S : List JSVal) (k : JSVal) :
    mapGet (buildMap sel S) k = grpOf sel S k := by
  have := foldl_add_lookup sel S [] k
  simpa [buildMap, grpOf, mapGet, alookup] using this


theorem keys_addToGroup (m : List (JSVal × List JSVal)) (k : JSVal) (r : JSVal) :
    (addToGroup m k r).map Prod.fst = addKey (m.map Prod.fst) k := by
  simp [addToGroup, keys_aset, addKey]

theorem foldl_add_keys (sel : KeySel) (S : List JSVal) :
    ∀ m : List (JSVal × List JSVal),
      (S.foldl (fun m r => addToGroup m (applySel sel r) r) m).map Prod.fst =
        (S.map (applySel sel)).foldl addKey (m.map Prod.fst) := by
  induction S with
  | nil => intro m; simp
  | cons r S ih =>
    intro m
    simp only [List.foldl_cons, List.map_cons]
    rw [ih, keys_addToGroup]

theorem addKey_fold_nodup {α : Type} [DecidableEq α] (l : List α) :
    ∀ ss : List α, ss.Nodup → (l.foldl addKey ss).Nodup := by
  induction l with
  | nil => intro ss h; simpa using h
  | cons a l ih =>
    intro ss h
    simp only [List.foldl_cons]
    apply ih
    by_cases hm : a ∈ ss
    · simpa [addKey, hm] using h
    · simp [addKey, hm, List.nodup_append, h, hm]

theorem addKey_fold_mem {α : Type} [DecidableEq α] (l : List α) :
    ∀ (ss : List α) (a : α), a ∈ l.foldl addKey ss ↔ a ∈ ss ∨ a ∈ l := by
  induction l with
  | nil => intro ss a; simp
  | cons b l ih =>
    intro ss a
    simp only [List.foldl_cons]
    rw [ih]
    by_cases hm : b ∈ ss
    · simp only [addKey, if_pos hm, List.mem_cons]
      constructor
      · rintro (h | h)
        · exact Or.inl h
        · exact Or.inr (Or.inr h)
      · rintro (h | h | h)
        · exact Or.inl h
        · exact Or.inl (h ▸ hm)
        · exact Or.inr h
    · simp only [addKey, if_neg hm, List.mem_append, List.mem_singleton, List.mem_cons]
      tauto

/-- The key list of the accumulated map. -/
theorem keys_buildMap (sel : KeySel) (S : List JSVal) :
    (buildMap sel S).map Prod.fst = (S.map (applySel sel)).foldl addKey [] := by
  simpa using foldl_add_keys sel S []

theorem keys_buildMap_nodup (sel : KeySel) (S : List JSVal) :
    ((buildMap sel S).map Prod.fst).Nodup := by
  rw [keys_buildMap]
  exact addKey_fold_nodup _ _ List.nodup_nil

theorem mem_keys_buildMap (sel : KeySel) (S : List JSVal) (k : JSVal) :
    k ∈ (buildMap sel S).map Prod.fst ↔ ∃ r ∈ S, applySel sel r = k := by
  rw [keys_buildMap, addKey_fold_mem]
  simp [List.mem_map, eq_comm]

/-! ### Insertion sort lemmas -/

theorem insertLe_perm {α : Type} (le : α → α → Bool) (a : α) (l : List α) :
    (insertLe le a l).Perm (a :: l) := by
  induction l with
  | nil => simp [insertLe]
  | cons b bs ih =>
    by_cases h : le b a
    · simp only [insertLe, if_pos h]
      exact (ih.cons b).trans (List.Perm.swap a b bs)
    · simp [insertLe, if_neg h]

theorem sortBy_perm {α : Type} (le : α → α → Bool) (l : List α) :
    (sortBy le l).Perm l := by
  suffices h : ∀ acc : List α,
      (l.foldl (fun acc x => insertLe le x acc) acc).Perm (acc ++ l) by
    simpa [sortBy] using h []
  induction l with
  | nil => intro acc; simp
  | cons x l ih =>
    intro acc
    simp only [List.foldl_cons]
    refine (ih (insertLe le x acc)).trans ?_
    refine (List.Perm.append_right l (insertLe_perm le x acc)).trans ?_
    exact (@List.perm_middle _ x acc l).symm

theorem insertLe_sorted {α : Type} (le : α → α → Bool)
    (htot : ∀ a b, le a b = true ∨ le b a = true)
    (htrans : ∀ a b c, le a b = true → le b c = true → le a c = true)
    (a : α) (l : List α) (hl : l.Pairwise (fun x y => le x y = true)) :
    (insertLe le a l).Pairwise (fun x y => le x y = true) := by
  induction l with
  | nil => simp [insertLe]
  | cons b bs ih =>
    rcases List.pairwise_cons.mp hl with ⟨hb, hbs⟩
    by_cases h : le b a
    · simp only [insertLe, if_pos h]
      refine List.pairwise_cons.mpr ⟨?_, ih hbs⟩
      intro x hx
      rcases List.mem_cons.mp ((insertLe_perm le a bs).mem_iff.mp hx) with hx' | hx'
      · exact hx' ▸ h
      · exact hb x hx'
    · simp only [insertLe, if_neg h]
      have hab : le a b = true := by
        rcases htot a b with h' | h'
        · exact h'
        · exact absurd h' h
      refine List.pairwise_cons.mpr ⟨?_, hl⟩
      intro x hx
      rcases List.mem_cons.mp hx with hx' | hx'
      · exact hx' ▸ hab
      · exact htrans a b x hab (hb x hx')

theorem sortBy_sorted {α : Type} (le : α → α → Bool)
    (htot : ∀ a b, le a b = true ∨ le b a = true)
    (htrans : ∀ a b c, le a b = true → le b c = true → le a c = true)
    (l : List α) : (sortBy le l).Pairwise (fun x y => le x y = true) := by
  suffices h : ∀ acc : List α, acc.Pairwise (fun x y => le x y = true) →
      (l.foldl (fun acc x => insertLe le x acc) acc).Pairwise (fun x y => le x y = true) by
    exact h [] List.Pairwise.nil
  induction l with
  | nil => intro acc h; simpa using h
  | cons x l ih =>
    intro acc h
    simp only [List.foldl_cons]
    exact ih (insertLe le x acc) (insertLe_sorted le htot htrans x acc h)

/-! ### Lexicographic string order -/

theorem lexLt_irrefl (u : List Char) : lexLt u u = false := by
  induction u with
  | nil => rfl
  | cons a as ih => simp [lexLt, ih]

theorem lexLt_asymm (u v : List Char) (h : lexLt u v = true) : lexLt v u = false := by
  induction u generalizing v with
  | nil =>
    cases v with
    | nil => simpa [lexLt] using h
    | cons b bs => simp [lexLt]
  | cons a as ih =>
    cases v with
    | nil => simp [lexLt] at h
    | cons b bs =>
      by_cases hab : a.toNat < b.toNat
      · simp [lexLt, hab, Nat.lt_asymm hab, Nat.ne_of_lt hab]
      · by_cases hba : b.toNat < a.toNat
        · simp [lexLt, hab, hba] at h
        · have := ih bs (by simpa [lexLt, hab, hba] using h)
          simp [lexLt, hab, hba, this]

theorem lexLt_trans (u v w : List Char) (h1 : lexLt u v = true) (h2 : lexLt v w = true) :
    lexLt u w = true := by
  induction u generalizing v w with
  | nil =>
    cases w with
    | nil =>
      cases v with
      | nil => simpa [lexLt] using h1
      | cons b bs => simp [lexLt] at h2
    | cons c cs => simp [lexLt]
  | cons a as ih =>
    cases v with
    | nil => simp [lexLt] at h1
    | cons b bs =>
      cases w with
      | nil => simp [lexLt] at h2
      | cons c cs =>
        by_cases hab : a.toNat < b.toNat
        · by_cases hbc : b.toNat < c.toNat
          · simp [lexLt, Nat.lt_trans hab hbc]
          · by_cases hcb : c.toNat < b.toNat
            · simp [lexLt, hbc, hcb] at h2
            · have hbceq : b.toNat = c.toNat := Nat.le_antisymm (Nat.le_of_not_lt hcb) (Nat.le_of_not_lt hbc)
              simp [lexLt, hbceq ▸ hab]
        · by_cases hba : b.toNat < a.toNat
          · simp [lexLt, hab, hba] at h1
          · have habeq : a.toNat = b.toNat := Nat.le_antisymm (Nat.le_of_not_lt hba) (Nat.le_of_not_lt hab)
            have h1' : lexLt as bs = true := by simpa [lexLt, hab, hba] using h1
            by_cases hbc : b.toNat < c.toNat
            · simp [lexLt, habeq ▸ hbc]
            · by_cases hcb : c.toNat < b.toNat
              · simp [lexLt, hbc, hcb] at h2
              · have h2' : lexLt bs cs = true := by simpa [lexLt, hbc, hcb] using h2
                have hac : ¬ a.toNat < c.toNat := by omega
                have hca : ¬ c.toNat < a.toNat := by omega
                simp [lexLt, hac, hca, ih bs cs h1' h2']

theorem lexLt_antisymm (u v : List Char) (h1 : lexLt u v = false) (h2 : lexLt v u = false) :
    u = v := by
  induction u generalizing v with
  | nil =>
    cases v with
    | nil => rfl
    | cons b bs => simp [lexLt] at h1
  | cons a as ih =>
    cases v with
    | nil => simp [lexLt] at h2
    | cons b bs =>
      by_cases hab : a.toNat < b.toNat
      · simp [lexLt, hab] at h1
      · by_cases hba : b.toNat < a.toNat
        · simp [lexLt, hba, hab] at h2
        · have : a = b := Char.ext (UInt32.ext (Nat.le_antisymm (Nat.le_of_not_lt hba) (Nat.le_of_not_lt hab)))
          subst this
          have h1' : lexLt as bs = false := by simpa [lexLt, hab] using h1
          have h2' : lexLt bs as = false := by simpa [lexLt, hab] using h2
          rw [ih bs h1' h2']

theorem string_ext {s t : String} (h : s.data = t.data) : s = t := by
  cases s; cases t; simp_all

theorem strLe_total (s t : String) : strLe s t = true ∨ strLe t s = true := by
  by_cases h : strLt t s = true
  · right
    simp only [strLe, Bool.not_eq_eq_eq_not, Bool.not_true]
    exact lexLt_asymm _ _ h
  · left
    simp only [strLe, Bool.not_eq_eq_eq_not, Bool.not_true]
    simpa using h

theorem strLe_trans (s t u : String) (h1 : strLe s t = true) (h2 : strLe t u = true) :
    strLe s u = true := by
  simp only [strLe, strLt, Bool.not_eq_eq_eq_not, Bool.not_true] at h1 h2 ⊢
  by_cases hus : lexLt u.data s.data = true
  · by_cases hst : lexLt s.data t.data = true
    · have := lexLt_trans _ _ _ hus hst
      simp [this] at h2
    · have hdata : s.data = t.data := lexLt_antisymm _ _ (by simpa using hst) h1
      rw [← hdata] at h2
      simp [hus] at h2
  · simpa using hus

theorem strLe_antisymm (s t : String) (h1 : strLe s t = true) (h2 : strLe t s = true) :
    s = t := by
  simp only [strLe, Bool.not_eq_eq_eq_not, Bool.not_true] at h1 h2
  exact string_ext (lexLt_antisymm _ _ h2 h1)

theorem strLt_of_le_ne (s t : String) (h1 : strLe s t = true) (h2 : s ≠ t) :
    strLt s t = true := by
  by_cases h : strLt s t = true
  · exact h
  · simp only [strLe, Bool.not_eq_eq_eq_not, Bool.not_true] at h1
    exact absurd (string_ext (lexLt_antisymm _ _ (by simpa [strLt] using h) h1)) h2

theorem strLe_of_lt (s t : String) (h : strLt s t = true) : strLe s t = true := by
  simp only [strLe, Bool.not_eq_eq_eq_not, Bool.not_true]
  exact lexLt_asymm _ _ h

/-! ### The sort comparator -/

theorem keyLE_eq (a b : JSVal) :
    keyLE a b =
      if a = .undef then decide (b = .undef)
      else if b = .undef then true
      else strLe (jsToString a) (jsToString b) := by
  cases a <;> cases b <;> simp [keyLE]

theorem keyLE_total (a b : JSVal) : keyLE a b = true ∨ keyLE b a = true := by
  rw [keyLE_eq, keyLE_eq]
  by_cases ha : a = .undef
  · by_cases hb : b = .undef <;> simp [ha, hb]
  · by_cases hb : b = .undef
    · simp [ha, hb]
    · simpa [ha, hb] using strLe_total (jsToString a) (jsToString b)

theorem keyLE_trans (a b c : JSVal) (h1 : keyLE a b = true) (h2 : keyLE b c = true) :
    keyLE a c = true := by
  cases a <;> cases b <;> cases c <;>
    simp only [keyLE] at h1 h2 ⊢ <;>
    first
      | exact strLe_trans _ _ _ h1 h2
      | rfl
      | exact h1
      | exact h2
      | (simp_all; done)

theorem sortKeys_perm (ks : List JSVal) : (sortKeys ks).Perm ks := sortBy_perm _ _

theorem sortKeys_sorted (ks : List JSVal) :
    (sortKeys ks).Pairwise (fun a b => keyLE a b = true) :=
  sortBy_sorted _ keyLE_total keyLE_trans ks

/-! ### The result-object construction -/

theorem aset_append_of_notmem {α β : Type} [DecidableEq α] (l : List (α × β)) (k : α) (v : β)
    (h : k ∉ l.map Prod.fst) : aset l k v = l ++ [(k, v)] := by
  induction l with
  | nil => simp [aset]
  | cons p l ih =>
    have hne : ¬ (p.1 = k) := by
      intro h'
      exact h (by simp [h'])
    simp only [aset, if_neg hne, List.cons_append, List.cons.injEq, true_and]
    exact ih (fun h' => h (by simp [List.mem_cons]; tauto))

theorem keys_aset_addKey {α : Type} [DecidableEq α] (l : List (α × List JSVal)) (k : α)
    (v : List JSVal) : (aset l k v).map Prod.fst = addKey (l.map Prod.fst) k := by
  rw [keys_aset, addKey]

theorem foldl_aset_of_nodup (m : List (JSVal × List JSVal)) (ks : List JSVal) :
    ∀ acc : List (String × List JSVal),
      ((ks.map jsToString).Nodup) →
      (∀ k ∈ ks, jsToString k ∉ acc.map Prod.fst) →
      ks.foldl (fun res k => aset res (jsToString k) (mapGet m k)) acc =
        acc ++ ks.map (fun k => (jsToString k, mapGet m k)) := by
  induction ks with
  | nil => intro acc _ _; simp
  | cons k ks ih =>
    intro acc hnd hfresh
    simp only [List.map_cons, List.nodup_cons] at hnd
    simp only [List.foldl_cons, List.map_cons]
    rw [aset_append_of_notmem _ _ _ (hfresh k (List.mem_cons_self k ks))]
    rw [ih (acc ++ [(jsToString k, mapGet m k)]) hnd.2 ?_]
    · simp
    · intro k' hk'
      simp only [List.map_append, List.map_cons, List.map_nil, List.mem_append,
        List.mem_singleton]
      rintro (h | h)
      · exact hfresh k' (List.mem_cons_of_mem _ hk') h
      · exact hnd.1 (h ▸ List.mem_map_of_mem jsToString hk')

theorem foldl_aset_keys (m : List (JSVal × List JSVal)) (ks : List JSVal) :
    ∀ acc : List (String × List JSVal),
      (ks.foldl (fun res k => aset res (jsToString k) (mapGet m k)) acc).map Prod.fst =
        (ks.map jsToString).foldl addKey (acc.map Prod.fst) := by
  induction ks with
  | nil => intro acc; simp
  | cons k ks ih =>
    intro acc
    simp only [List.foldl_cons, List.map_cons]
    rw [ih, keys_aset_addKey]

theorem mem_foldl_aset (m : List (JSVal × List JSVal)) (ks : List JSVal) :
    ∀ (acc : List (String × List JSVal)) (p : String × List JSVal),
      p ∈ ks.foldl (fun res k => aset res (jsToString k) (mapGet m k)) acc →
      p ∈ acc ∨ ∃ k ∈ ks, p = (jsToString k, mapGet m k) := by
  induction ks with
  | nil => intro acc p hp; exact Or.inl hp
  | cons k ks ih =>
    intro acc p hp
    rcases ih _ p hp with h | ⟨k', hk', h⟩
    · rcases mem_aset _ _ _ _ h with h' | h'
      · exact Or.inl h'
      · exact Or.inr ⟨k, List.mem_cons_self k ks, h'⟩
    · exact Or.inr ⟨k', List.mem_cons_of_mem _ hk', h⟩


/-- Normal form of a `groupBy` result under the no-collapse hypothesis: one
entry per distinct key, in sorted key order, each entry holding the string
image of the key and the input records carrying that key. -/
theorem groupBy_normal (S : List JSVal) (sel : KeySel) (H : KeyStringsInj S sel) :
    groupBy S sel =
      (sortKeys ((buildMap sel S).map Prod.fst)).map
        (fun k => (jsToString k, grpOf sel S k)) := by
  have hK : ((buildMap sel S).map Prod.fst).Nodup := keys_buildMap_nodup sel S
  have hKmap : (((buildMap sel S).map Prod.fst).map jsToString).Nodup := by
    apply List.Nodup.map_on ?_ hK
    intro x hx y hy hxy
    rcases (mem_keys_buildMap sel S x).mp hx with ⟨r1, hr1, hk1⟩
    rcases (mem_keys_buildMap sel S y).mp hy with ⟨r2, hr2, hk2⟩
    subst hk1; subst hk2
    exact H r1 hr1 r2 hr2 hxy
  have hKs : ((sortKeys ((buildMap sel S).map Prod.fst)).map jsToString).Nodup :=
    ((sortKeys_perm _).map jsToString).symm.nodup hKmap
  show (sortKeys ((buildMap sel S).map Prod.fst)).foldl
      (fun res k => aset res (jsToString k) (mapGet (buildMap sel S) k)) [] = _
  rw [foldl_aset_of_nodup _ _ [] hKs (by simp)]
  simp only [List.nil_append]
  apply List.map_congr_left
  intro k _
  rw [mapGet_buildMap]

/-- Group membership forces the key: a record lies in `grpOf sel S k` exactly
when it lies in `S` and its selector value is `k`. -/
theorem mem_grpOf (sel : KeySel) (S : List JSVal) (k r : JSVal) :
    r ∈ grpOf sel S k ↔ r ∈ S ∧ applySel sel r = k := by
  simp [grpOf, List.mem_filter]

theorem length_filter_partition {α : Type} (p : α → Bool) (l : List α) :
    (l.filter p).length + (l.filter (fun a => !p a)).length = l.length :=
  (List.length_eq_length_filter_add p).symm

theorem sum_grp_lengths (sel : KeySel) (ks : List JSVal) :
    ∀ S : List JSVal, ks.Nodup → (∀ r ∈ S, applySel sel r ∈ ks) →
      (ks.map (fun k => (grpOf sel S k).length)).sum = S.length := by
  induction ks with
  | nil =>
    intro S _ hcov
    cases S with
    | nil => simp
    | cons r S => exact absurd (hcov r (List.mem_cons_self r S)) (by simp)
  | cons k ks ih =>
    intro S hnd hcov
    have hnd' := List.nodup_cons.mp hnd
    have hrest : ∀ k' ∈ ks,
        grpOf sel S k' = grpOf sel (S.filter (fun r => !(applySel sel r == k))) k' := by
      intro k' hk'
      have hne : k' ≠ k := fun h => hnd'.1 (h ▸ hk')
      simp only [grpOf, List.filter_filter]
      apply List.filter_congr
      intro r _
      by_cases h : applySel sel r = k'
      · have : ¬ (applySel sel r = k) := fun h' => hne (by rw [← h, h'])
        simp [h, this, hne]
      · simp [h]
    have hcov' : ∀ r ∈ S.filter (fun r => !(applySel sel r == k)), applySel sel r ∈ ks := by
      intro r hr
      rcases List.mem_filter.mp hr with ⟨hrS, hrk⟩
      rcases List.mem_cons.mp (hcov r hrS) with h | h
      · simp [h] at hrk
      · exact h
    calc ((k :: ks).map (fun k' => (grpOf sel S k').length)).sum
        = (grpOf sel S k).length + (ks.map (fun k' => (grpOf sel S k').length)).sum := by
          simp
      _ = (grpOf sel S k).length +
            (ks.map (fun k' =>
              (grpOf sel (S.filter (fun r => !(applySel sel r == k))) k').length)).sum := by
          congr 1
          apply congrArg
          exact List.map_congr_left (fun k' hk' => by rw [hrest k' hk'])
      _ = (grpOf sel S k).length + (S.filter (fun r => !(applySel sel r == k))).length := by
          rw [ih _ hnd'.2 hcov']
      _ = S.length := by
          have := length_filter_partition (fun r => applySel sel r == k) S
          simpa [grpOf] using this

/-- Congruence of the accumulation loop in the selector (pointwise on the
input records). -/
theorem buildMap_congr (f g : KeySel) (S : List JSVal)
    (h : ∀ r ∈ S, applySel f r = applySel g r) : buildMap f S = buildMap g S := by
  suffices haux : ∀ m, S.foldl (fun m r => addToGroup m (applySel f r) r) m =
      S.foldl (fun m r => addToGroup m (applySel g r) r) m from haux []
  induction S with
  | nil => intro m; rfl
  | cons r S ih =>
    intro m
    simp only [List.foldl_cons]
    rw [h r (List.mem_cons_self r S)]
    exact ih (fun r' hr' => h r' (List.mem_cons_of_mem _ hr')) _

/-- The whole of `groupBy` is extensional in the selector. -/
theorem groupBy_ext (S : List JSVal) (f g : KeySel)
    (h : ∀ r ∈ S, applySel f r = applySel g r) : groupBy S f = groupBy S g := by
  unfold groupBy
  rw [buildMap_congr f g S h]


/-- C1.  The claim quantifies over every key selector; it fails when two
distinct keys share a string image, because the final copy into the
string-keyed result object overwrites one group with the other.  At
`[{k:1}, {k:"1"}]` grouped by field `k` the result holds one single-record
group, so the total count is 1 while the input length is 2. -/
theorem groupBy_total_count_cex :
    sumSizes (groupBy [cRec1, cRec2] (.field (.str "k"))) ≠
      ([cRec1, cRec2] : List JSVal).length := by decide

/-- C1 (amended).  When distinct group keys have distinct string images — in
particular whenever all keys are strings, or all keys are numbers — the sum of
the group sizes of `groupBy S sel` equals the length of `S`: no record is
duplicated and none is dropped. -/
theorem groupBy_total_count (S : List JSVal) (sel : KeySel) (H : KeyStringsInj S sel) :
    sumSizes (groupBy S sel) = S.length := by
  rw [groupBy_normal S sel H]
  unfold sumSizes
  have hcomp : (((sortKeys ((buildMap sel S).map Prod.fst)).map
        (fun k => (jsToString k, grpOf sel S k))).map (fun p => p.2.length)) =
      (sortKeys ((buildMap sel S).map Prod.fst)).map (fun k => (grpOf sel S k).length) := by
    rw [List.map_map]; rfl
  rw [hcomp]
  have hperm : ((sortKeys ((buildMap sel S).map Prod.fst)).map
        (fun k => (grpOf sel S k).length)).Perm
      (((buildMap sel S).map Prod.fst).map (fun k => (grpOf sel S k).length)) :=
    (sortKeys_perm _).map _
  rw [hperm.sum_eq]
  exact sum_grp_lengths sel _ S (keys_buildMap_nodup sel S)
    (fun r hr => (mem_keys_buildMap sel S _).mpr ⟨r, hr, rfl⟩)

/-- C1 witness: the three-record team scenario from the source's doc comment
satisfies the no-collapse hypothesis and totals 3. -/
theorem groupBy_total_count_witness :
    sumSizes (groupBy [recSteve, recJack, recCarol] (.field (.str "team"))) = 3 :=
  groupBy_total_count [recSteve, recJack, recCarol] (.field (.str "team")) (by decide)

/-- C2.  Same collapse as for C1: at `[{k:1}, {k:"1"}]` grouped by field `k`,
the record `{k:1}` appears in no group of the result at all (the only group
holds only `{k:"1"}`), contradicting membership in the group keyed by its own
selector value. -/
theorem groupBy_partition_cex :
    groupBy [cRec1, cRec2] (.field (.str "k")) = [("1", [cRec2])] ∧
      cRec1 ∉ [cRec2] := by decide

/-- C2 (amended).  Under the no-collapse hypothesis every record of `S` lies
in the result entry keyed by the string image of its selector value, that
entry holds exactly the records with that selector value, and the record lies
in no other entry. -/
theorem groupBy_partition (S : List JSVal) (sel : KeySel) (H : KeyStringsInj S sel)
    (r : JSVal) (hr : r ∈ S) :
    (jsToString (applySel sel r), grpOf sel S (applySel sel r)) ∈ groupBy S sel ∧
    r ∈ grpOf sel S (applySel sel r) ∧
    ∀ p ∈ groupBy S sel, r ∈ p.2 →
      p = (jsToString (applySel sel r), grpOf sel S (applySel sel r)) := by
  rw [groupBy_normal S sel H]
  refine ⟨?_, ?_, ?_⟩
  · apply List.mem_map_of_mem
    apply (sortKeys_perm _).mem_iff.mpr
    exact (mem_keys_buildMap sel S _).mpr ⟨r, hr, rfl⟩
  · exact (mem_grpOf _ _ _ _).mpr ⟨hr, rfl⟩
  · intro p hp hrp
    rcases List.mem_map.mp hp with ⟨k, _, rfl⟩
    have hk : applySel sel r = k := ((mem_grpOf _ _ _ _).mp hrp).2
    rw [← hk]

/-- C2 witness: instantiated at the team scenario and the record Steve. -/
theorem groupBy_partition_witness :
    (jsToString (applySel (.field (.str "team")) recSteve),
        grpOf (.field (.str "team")) [recSteve, recJack, recCarol]
          (applySel (.field (.str "team")) recSteve)) ∈
      groupBy [recSteve, recJack, recCarol] (.field (.str "team")) ∧
    recSteve ∈ grpOf (.field (.str "team")) [recSteve, recJack, recCarol]
        (applySel (.field (.str "team")) recSteve) ∧
    ∀ p ∈ groupBy [recSteve, recJack, recCarol] (.field (.str "team")),
      recSteve ∈ p.2 →
        p = (jsToString (applySel (.field (.str "team")) recSteve),
          grpOf (.field (.str "team")) [recSteve, recJack, recCarol]
            (applySel (.field (.str "team")) recSteve)) :=
  groupBy_partition [recSteve, recJack, recCarol] (.field (.str "team"))
    (by decide) recSteve (by decide)

/-- C4.  Every entry of a `groupBy` result is the subsequence of the input
consisting of the records with one fixed selector value, so within a group the
records keep their relative input order.  No hypothesis is needed: even a
collapsed entry is one of the accumulated groups. -/
theorem groupBy_stable (S : List JSVal) (sel : KeySel) (p : String × List JSVal)
    (hp : p ∈ groupBy S sel) :
    ∃ k, p.2 = grpOf sel S k ∧ p.2.Sublist S := by
  have hp' : p ∈ (sortKeys ((buildMap sel S).map Prod.fst)).foldl
      (fun res k => aset res (jsToString k) (mapGet (buildMap sel S) k)) [] := hp
  rcases mem_foldl_aset _ _ [] p hp' with h | ⟨k, _, rfl⟩
  · simp at h
  · refine ⟨k, by rw [mapGet_buildMap], ?_⟩
    rw [mapGet_buildMap]
    exact List.filter_sublist S

/-- C4 witness: instantiated at the blue entry of the team scenario. -/
theorem groupBy_stable_witness :
    ∃ k, (("blue", [recSteve, recCarol]) : String × List JSVal).2 =
        grpOf (.field (.str "team")) [recSteve, recJack, recCarol] k ∧
      (("blue", [recSteve, recCarol]) : String × List JSVal).2.Sublist
        [recSteve, recJack, recCarol] :=
  groupBy_stable [recSteve, recJack, recCarol] (.field (.str "team"))
    ("blue", [recSteve, recCarol]) (by decide)

/-- C5.  The source never validates `property`: a non-callable value — even
`null` — is silently wrapped as a field accessor, so `groupBy([{x:5}], null)`
returns a complete grouped result (the record grouped under the string image
of `undefined`) instead of failing with an error. -/
theorem groupBy_invalid_selector_cex :
    groupBy [mkObj [("x", .num 5)]] (.field .null) =
      [("undefined", [mkObj [("x", .num 5)]])] := by decide

/-- C5 (amended).  A non-callable `property` is coerced to a property name by
`ToString`, so `null` and `undefined` behave exactly like the field names
"null" and "undefined"; no error is ever produced and the result is total. -/
theorem groupBy_invalid_selector_amended (S : List JSVal) :
    groupBy S (.field .null) = groupBy S (.field (.str "null")) ∧
    groupBy S (.field .undef) = groupBy S (.field (.str "undefined")) :=
  ⟨groupBy_ext S _ _ (fun r _ => rfl), groupBy_ext S _ _ (fun r _ => rfl)⟩

/-- C8.  `groupBy` is deterministic and extensional: equal input lists and
selectors agreeing on the inputs give equal results.  Purity itself is visible
in the source (it writes nothing outside its locals); in this functional
embedding the result depends on nothing but the arguments. -/
theorem groupBy_deterministic (S T : List JSVal) (f g : KeySel) (hST : S = T)
    (hfg : ∀ r ∈ S, applySel f r = applySel g r) : groupBy S f = groupBy T g := by
  subst hST
  exact groupBy_ext S f g hfg

/-- C8 witness: the field form and the explicit function form of the team
selector give the same result on the team scenario. -/
theorem groupBy_deterministic_witness :
    groupBy [recSteve, recJack, recCarol] (.field (.str "team")) =
      groupBy [recSteve, recJack, recCarol] (.fn (getField "team")) :=
  groupBy_deterministic [recSteve, recJack, recCarol] [recSteve, recJack, recCarol]
    (.field (.str "team")) (.fn (getField "team")) rfl (by decide)

theorem keyLE_undef_left (b : JSVal) : keyLE .undef b = (b == .undef) := by
  cases b <;> rfl

/-- In a sorted duplicate-free key list containing `undefined`, `undefined` is
the final element: the default sort comparator places it after everything. -/
theorem sorted_undef_last (ks : List JSVal)
    (hs : ks.Pairwise (fun a b => keyLE a b = true)) (hnd : ks.Nodup)
    (hmem : JSVal.undef ∈ ks) :
    ∃ ks', ks = ks' ++ [JSVal.undef] ∧ JSVal.undef ∉ ks' := by
  induction ks with
  | nil => simp at hmem
  | cons a t ih =>
    rcases List.pairwise_cons.mp hs with ⟨ha, ht⟩
    rcases List.nodup_cons.mp hnd with ⟨hna, hnt⟩
    by_cases h : a = JSVal.undef
    · subst h
      cases t with
      | nil => exact ⟨[], rfl, by simp⟩
      | cons b t =>
        have hb := ha b (List.mem_cons_self b t)
        rw [keyLE_undef_left] at hb
        have hbu : b = JSVal.undef := by simpa using hb
        exact absurd (hbu ▸ List.mem_cons_self b t) hna
    · have hmem' : JSVal.undef ∈ t := by
        rcases List.mem_cons.mp hmem with h' | h'
        · exact absurd h'.symm h
        · exact h'
      rcases ih ht hnt hmem' with ⟨t', ht', hnt'⟩
      refine ⟨a :: t', by rw [ht']; rfl, ?_⟩
      intro hmm
      rcases List.mem_cons.mp hmm with h' | h'
      · exact h h'.symm
      · exact hnt' h'

/-- C6.  A record lacking the named field is grouped, not rejected: its key is
`undefined`, the `undefined` key sorts last, so the result object's
"undefined" property ends up holding exactly the records whose selector value
is `undefined` — including the given record.  Concretely,
`groupBy([{x:5}], 'missing')` is one group keyed by the string image of
`undefined` containing `{x:5}`. -/
theorem groupBy_missing_field (S : List JSVal) (name : String) (r : JSVal)
    (hr : r ∈ S) (hmiss : getField name r = .undef) :
    alookup (groupBy S (.field (.str name))) "undefined" =
      some (grpOf (.field (.str name)) S .undef) ∧
    r ∈ grpOf (.field (.str name)) S .undef ∧
    groupBy [mkObj [("x", .num 5)]] (.field (.str "missing")) =
      [("undefined", [mkObj [("x", .num 5)]])] := by
  have hkey : applySel (.field (.str name)) r = .undef := hmiss
  refine ⟨?_, (mem_grpOf _ _ _ _).mpr ⟨hr, hkey⟩, by decide⟩
  have hmemK : JSVal.undef ∈ (buildMap (.field (.str name)) S).map Prod.fst :=
    (mem_keys_buildMap _ S _).mpr ⟨r, hr, hkey⟩
  have hmemS : JSVal.undef ∈ sortKeys ((buildMap (.field (.str name)) S).map Prod.fst) :=
    (sortKeys_perm _).mem_iff.mpr hmemK
  have hndS : (sortKeys ((buildMap (.field (.str name)) S).map Prod.fst)).Nodup :=
    (sortKeys_perm _).symm.nodup (keys_buildMap_nodup _ S)
  rcases sorted_undef_last _ (sortKeys_sorted _) hndS hmemS with ⟨ks', hks, _⟩
  show alookup ((sortKeys ((buildMap (.field (.str name)) S).map Prod.fst)).foldl
      (fun res k => aset res (jsToString k) (mapGet (buildMap (.field (.str name)) S) k))
      []) "undefined" = _
  rw [hks, List.foldl_append]
  simp only [List.foldl_cons, List.foldl_nil]
  rw [show jsToString JSVal.undef = "undefined" from rfl, alookup_aset_self,
    mapGet_buildMap]

/-- C6 witness: the spec's own scenario `groupBy([{x:5}], 'missing')`. -/
theorem groupBy_missing_field_witness :
    alookup (groupBy [mkObj [("x", .num 5)]] (.field (.str "missing"))) "undefined" =
      some (grpOf (.field (.str "missing")) [mkObj [("x", .num 5)]] .undef) ∧
    mkObj [("x", .num 5)] ∈ grpOf (.field (.str "missing")) [mkObj [("x", .num 5)]] .undef ∧
    groupBy [mkObj [("x", .num 5)]] (.field (.str "missing")) =
      [("undefined", [mkObj [("x", .num 5)]])] :=
  groupBy_missing_field [mkObj [("x", .num 5)]] "missing" (mkObj [("x", .num 5)])
    (by decide) (by decide)

/-- C9.  Every key of the result object is the string conversion of a computed
group key, and when two distinct keys share a string image the groups collapse
into one entry whose records are those of the group assigned later in sorted
order: with keys 1 and "1" (stable sort keeps the number first) the surviving
records are those of the string-keyed group. -/
theorem groupBy_result_keys_strings :
    (∀ (S : List JSVal) (sel : KeySel), ∀ p ∈ groupBy S sel,
        ∃ r ∈ S, jsToString (applySel sel r) = p.1) ∧
    groupBy [cRec1, cRec2] (.field (.str "k")) = [("1", [cRec2])] := by
  refine ⟨?_, by decide⟩
  intro S sel p hp
  have hp' : p ∈ (sortKeys ((buildMap sel S).map Prod.fst)).foldl
      (fun res k => aset res (jsToString k) (mapGet (buildMap sel S) k)) [] := hp
  rcases mem_foldl_aset _ _ [] p hp' with h | ⟨k, hk, rfl⟩
  · simp at h
  · have hkK : k ∈ (buildMap sel S).map Prod.fst := (sortKeys_perm _).mem_iff.mp hk
    rcases (mem_keys_buildMap sel S k).mp hkK with ⟨r, hr, hkr⟩
    exact ⟨r, hr, by rw [hkr]⟩

/-- C9 witness: the key "1" of the collapsed result originates from a record
of the input. -/
theorem groupBy_result_keys_strings_witness :
    ∃ r ∈ ([cRec1, cRec2] : List JSVal),
      jsToString (applySel (.field (.str "k")) r) = "1" :=
  groupBy_result_keys_strings.1 [cRec1, cRec2] (.field (.str "k"))
    ("1", [cRec2]) (by decide)

theorem natLeStr_total (a b : String) : natLeStr a b = true ∨ natLeStr b a = true := by
  simp only [natLeStr, decide_eq_true_eq]
  exact Nat.le_total _ _

theorem natLeStr_trans (a b c : String) (h1 : natLeStr a b = true) (h2 : natLeStr b c = true) :
    natLeStr a c = true := by
  simp only [natLeStr, decide_eq_true_eq] at h1 h2 ⊢
  exact Nat.le_trans h1 h2

/-- The key strings of a result, as produced by the copying loop: first
occurrences of the string images of the sorted keys. -/
theorem groupBy_keys_eq (S : List JSVal) (sel : KeySel) :
    (groupBy S sel).map Prod.fst =
      ((sortKeys ((buildMap sel S).map Prod.fst)).map jsToString).foldl addKey [] := by
  show ((sortKeys ((buildMap sel S).map Prod.fst)).foldl
      (fun res k => aset res (jsToString k) (mapGet (buildMap sel S) k)) []).map Prod.fst = _
  simpa using foldl_aset_keys (buildMap sel S) (sortKeys ((buildMap sel S).map Prod.fst)) []

/-- The result object never holds two entries with the same key. -/
theorem groupBy_keys_nodup (S : List JSVal) (sel : KeySel) :
    ((groupBy S sel).map Prod.fst).Nodup := by
  rw [groupBy_keys_eq]
  exact addKey_fold_nodup _ _ List.nodup_nil

/-- Collecting first occurrences out of a `strLe`-sorted string list yields a
strictly `strLt`-sorted list. -/
theorem addKey_fold_strict (l : List String) :
    ∀ ss : List String, ss.Pairwise (fun a b => strLt a b = true) →
      (∀ s ∈ ss, ∀ t ∈ l, strLe s t = true) →
      l.Pairwise (fun a b => strLe a b = true) →
      (l.foldl addKey ss).Pairwise (fun a b => strLt a b = true) := by
  induction l with
  | nil => intro ss h _ _; simpa using h
  | cons t l ih =>
    intro ss hss hcross hl
    rcases List.pairwise_cons.mp hl with ⟨htl, hl'⟩
    simp only [List.foldl_cons]
    by_cases hm : t ∈ ss
    · rw [addKey, if_pos hm]
      exact ih ss hss (fun s hs u hu => hcross s hs u (List.mem_cons_of_mem _ hu)) hl'
    · rw [addKey, if_neg hm]
      apply ih
      · rw [List.pairwise_append]
        refine ⟨hss, by simp, ?_⟩
        intro s hs u hu
        have hut : u = t := List.mem_singleton.mp hu
        subst hut
        exact strLt_of_le_ne s u (hcross s hs u (List.mem_cons_self u l))
          (fun heq => hm (heq ▸ hs))
      · intro s hs u hu
        rcases List.mem_append.mp hs with h' | h'
        · exact hcross s h' u (List.mem_cons_of_mem _ hu)
        · have hst : s = t := List.mem_singleton.mp h'
          subst hst
          exact htl u hu
      · exact hl'

/-- When no group key is the undefined value, the insertion order of the
result object's keys is strictly ascending in the lexicographic string
order. -/
theorem groupBy_keys_sorted_strings (S : List JSVal) (sel : KeySel)
    (hu : ∀ r ∈ S, applySel sel r ≠ .undef) :
    ((groupBy S sel).map Prod.fst).Pairwise (fun a b => strLt a b = true) := by
  rw [groupBy_keys_eq]
  apply addKey_fold_strict _ [] List.Pairwise.nil (by simp)
  rw [List.pairwise_map]
  apply List.Pairwise.imp_of_mem ?_ (sortKeys_sorted ((buildMap sel S).map Prod.fst))
  intro a b ha hb hk
  have haK : a ∈ (buildMap sel S).map Prod.fst := (sortKeys_perm _).mem_iff.mp ha
  have hbK : b ∈ (buildMap sel S).map Prod.fst := (sortKeys_perm _).mem_iff.mp hb
  rcases (mem_keys_buildMap sel S a).mp haK with ⟨r1, hr1, hk1⟩
  rcases (mem_keys_buildMap sel S b).mp hbK with ⟨r2, hr2, hk2⟩
  have hna : a ≠ JSVal.undef := hk1 ▸ hu r1 hr1
  have hnb : b ≠ JSVal.undef := hk2 ▸ hu r2 hr2
  rw [keyLE_eq, if_neg hna, if_neg hnb] at hk
  exact hk

/-- C3.  The claim describes the result's key sequence as ascending in the
key type's default order; the code instead enumerates the keys of a plain
object: string keys that are canonical array indices come first in ascending
numeric order, the remaining keys follow in the sorted insertion order, which
is ascending lexicographic on the string images (undefined, when present,
having been sorted last).  For two string keys "10" and "2" the enumeration is
["2", "10"] although "10" is lexicographically smaller. -/
theorem groupBy_sorted_keys_cex :
    resultKeys [mkObj [("t", .str "10")], mkObj [("t", .str "2")]] (.field (.str "t")) =
      ["2", "10"] ∧
    strLt "10" "2" = true := by decide

/-- C3 (amended).  The result's key enumeration splits into the canonical
array indices, strictly ascending numerically, followed by the remaining keys;
the latter are strictly ascending lexicographically whenever no group key is
the undefined value (an undefined key is placed last among them by the sort
regardless of its string image). -/
theorem groupBy_sorted_keys (S : List JSVal) (sel : KeySel) :
    resultKeys S sel =
      sortBy natLeStr (((groupBy S sel).map Prod.fst).filter isArrayIndex) ++
        ((groupBy S sel).map Prod.fst).filter (fun s => !isArrayIndex s) ∧
    (sortBy natLeStr (((groupBy S sel).map Prod.fst).filter isArrayIndex)).Pairwise
      (fun a b => strToNat a < strToNat b) ∧
    ((∀ r ∈ S, applySel sel r ≠ .undef) →
      (((groupBy S sel).map Prod.fst).filter (fun s => !isArrayIndex s)).Pairwise
        (fun a b => strLt a b = true)) := by
  refine ⟨rfl, ?_, ?_⟩
  · have hnd : (((groupBy S sel).map Prod.fst).filter isArrayIndex).Nodup :=
      (groupBy_keys_nodup S sel).filter _
    have hnds : (sortBy natLeStr (((groupBy S sel).map Prod.fst).filter isArrayIndex)).Nodup :=
      (sortBy_perm _ _).symm.nodup hnd
    have hle := sortBy_sorted natLeStr natLeStr_total natLeStr_trans
      (((groupBy S sel).map Prod.fst).filter isArrayIndex)
    have hne : (sortBy natLeStr (((groupBy S sel).map Prod.fst).filter
        isArrayIndex)).Pairwise (fun a b : String => a ≠ b) := hnds
    apply List.Pairwise.imp_of_mem ?_ (hle.and hne)
    intro a b ha hb hab
    have hca : isCanonicalNat a = true := by
      have := (List.mem_filter.mp ((sortBy_perm _ _).mem_iff.mp ha)).2
      simp only [isArrayIndex, Bool.and_eq_true] at this
      exact this.1
    have hcb : isCanonicalNat b = true := by
      have := (List.mem_filter.mp ((sortBy_perm _ _).mem_iff.mp hb)).2
      simp only [isArrayIndex, Bool.and_eq_true] at this
      exact this.1
    have haeq : toString (strToNat a) = a := by
      simpa [isCanonicalNat] using hca
    have hbeq : toString (strToNat b) = b := by
      simpa [isCanonicalNat] using hcb
    have hlt : strToNat a ≤ strToNat b := by
      simpa [natLeStr] using hab.1
    refine Nat.lt_of_le_of_ne hlt (fun h => hab.2 ?_)
    rw [← haeq, ← hbeq, h]
  · intro hu
    exact List.Pairwise.sublist (List.filter_sublist _)
      (groupBy_keys_sorted_strings S sel hu)

/-- C3 witness: with number keys 10 and 2 the index segment is ["2", "10"],
strictly ascending numerically, and the no-undefined hypothesis holds. -/
theorem groupBy_sorted_keys_witness :
    (((groupBy [mkObj [("n", .num 10)], mkObj [("n", .num 2)]]
        (.field (.str "n"))).map Prod.fst).filter (fun s => !isArrayIndex s)).Pairwise
      (fun a b => strLt a b = true) :=
  (groupBy_sorted_keys [mkObj [("n", .num 10)], mkObj [("n", .num 2)]]
    (.field (.str "n"))).2.2 (by decide)


theorem alookup_map_pair (g : JSVal → List JSVal) (M : List JSVal) (s : String) :
    alookup (M.map (fun k => (jsToString k, g k))) s =
      (M.find? (fun k => jsToString k == s)).map g := by
  induction M with
  | nil => rfl
  | cons k M ih =>
    by_cases h : jsToString k = s
    · simp [alookup, List.find?_cons, h]
    · simp [alookup, List.find?_cons, h, ih]

theorem find?_string_self (M : List JSVal) (hnd : (M.map jsToString).Nodup) (k : JSVal)
    (hk : k ∈ M) : M.find? (fun k' => jsToString k' == jsToString k) = some k := by
  induction M with
  | nil => simp at hk
  | cons a M ih =>
    simp only [List.map_cons, List.nodup_cons] at hnd
    by_cases h : jsToString a = jsToString k
    · have hak : a = k := by
        rcases List.mem_cons.mp hk with h' | h'
        · exact h'.symm
        · exact absurd (h ▸ List.mem_map_of_mem jsToString h') hnd.1
      simp [List.find?_cons, h, hak]
    · have hk' : k ∈ M := by
        rcases List.mem_cons.mp hk with h' | h'
        · exact absurd (h' ▸ rfl) h
        · exact h'
      simp [List.find?_cons, h, ih hnd.2 hk']

theorem objKeys_perm (o : List (String × List JSVal)) :
    (objKeys o).Perm (o.map Prod.fst) := by
  unfold objKeys
  exact (List.Perm.append_right _ (sortBy_perm _ _)).trans (List.filter_append_perm _ _)

/-- Filtering a group by its own key changes nothing. -/
theorem grpOf_filter_self (sel : KeySel) (S : List JSVal) (k : JSVal) :
    (grpOf sel S k).filter (fun r => applySel sel r == k) = grpOf sel S k := by
  unfold grpOf
  rw [List.filter_filter]
  apply List.filter_congr
  intro r _
  by_cases h : applySel sel r = k <;> simp [h]

/-- Filtering a group by a different key empties it. -/
theorem grpOf_filter_ne (sel : KeySel) (S : List JSVal) (k k' : JSVal) (h : k' ≠ k) :
    (grpOf sel S k').filter (fun r => applySel sel r == k) = [] := by
  rw [List.filter_eq_nil_iff]
  intro r hr
  have := ((mem_grpOf sel S k' r).mp hr).2
  simp [this, h]

theorem grpOf_append (sel : KeySel) (l1 l2 : List JSVal) (k : JSVal) :
    grpOf sel (l1 ++ l2) k = grpOf sel l1 k ++ grpOf sel l2 k :=
  List.filter_append l1 l2

theorem grpOf_grpOf_self (sel : KeySel) (S : List JSVal) (k : JSVal) :
    grpOf sel (grpOf sel S k) k = grpOf sel S k :=
  grpOf_filter_self sel S k

theorem grpOf_grpOf_ne (sel : KeySel) (S : List JSVal) (k k' : JSVal) (h : k' ≠ k) :
    grpOf sel (grpOf sel S k') k = [] :=
  grpOf_filter_ne sel S k k' h

theorem grpOf_flatten_nil (sel : KeySel) (S : List JSVal) (κ : List JSVal) (k : JSVal)
    (h : ∀ x ∈ κ, x ≠ k) :
    grpOf sel ((κ.map (grpOf sel S)).flatten) k = [] := by
  induction κ with
  | nil => rfl
  | cons k' κ ih =>
    rw [List.map_cons, List.flatten_cons, grpOf_append,
      grpOf_grpOf_ne sel S k k' (h k' (List.mem_cons_self k' κ)),
      ih (fun x hx => h x (List.mem_cons_of_mem _ hx))]
    rfl

/-- Refiltering a disjoint union of groups by one of its keys recovers exactly
that group. -/
theorem grpOf_flatten (sel : KeySel) (S : List JSVal) (κ : List JSVal) (hnd : κ.Nodup)
    (k : JSVal) (hk : k ∈ κ) :
    grpOf sel ((κ.map (grpOf sel S)).flatten) k = grpOf sel S k := by
  induction κ with
  | nil => simp at hk
  | cons k' κ ih =>
    rcases List.nodup_cons.mp hnd with ⟨hk'κ, hndκ⟩
    rw [List.map_cons, List.flatten_cons, grpOf_append]
    by_cases h : k' = k
    · subst h
      rw [grpOf_grpOf_self,
        grpOf_flatten_nil sel S κ k' (fun x hx hxx => hk'κ (hxx ▸ hx)),
        List.append_nil]
    · have hkκ : k ∈ κ := by
        rcases List.mem_cons.mp hk with h' | h'
        · exact absurd h'.symm h
        · exact h'
      rw [grpOf_grpOf_ne sel S k k' h, List.nil_append]
      exact ih hndκ hkκ

theorem keys_strings_nodup (S : List JSVal) (sel : KeySel) (H : KeyStringsInj S sel) :
    (((buildMap sel S).map Prod.fst).map jsToString).Nodup := by
  apply List.Nodup.map_on ?_ (keys_buildMap_nodup sel S)
  intro x hx y hy hxy
  rcases (mem_keys_buildMap sel S x).mp hx with ⟨r1, hr1, hk1⟩
  rcases (mem_keys_buildMap sel S y).mp hy with ⟨r2, hr2, hk2⟩
  subst hk1; subst hk2
  exact H r1 hr1 r2 hr2 hxy

/-- Two sorted lists that are permutations of each other coincide, provided
the order is antisymmetric on the elements involved. -/
theorem sorted_perm_eq (l₁ : List JSVal) :
    ∀ l₂ : List JSVal, l₁.Perm l₂ →
      l₁.Pairwise (fun a b => keyLE a b = true) →
      l₂.Pairwise (fun a b => keyLE a b = true) →
      (∀ a ∈ l₁, ∀ b ∈ l₁, keyLE a b = true → keyLE b a = true → a = b) →
      l₁ = l₂ := by
  induction l₁ with
  | nil =>
    intro l₂ hp _ _ _
    exact hp.nil_eq
  | cons a t ih =>
    intro l₂ hp h₁ h₂ has
    cases l₂ with
    | nil => exact absurd hp.symm.nil_eq (by simp)
    | cons b t₂ =>
      rcases List.pairwise_cons.mp h₁ with ⟨ha, ht⟩
      rcases List.pairwise_cons.mp h₂ with ⟨hb, ht₂⟩
      have hab : a = b := by
        by_cases h : a = b
        · exact h
        · have haMem : a ∈ b :: t₂ := hp.mem_iff.mp (List.mem_cons_self a t)
          have hbMem : b ∈ a :: t := hp.mem_iff.mpr (List.mem_cons_self b t₂)
          have hat₂ : a ∈ t₂ := by
            rcases List.mem_cons.mp haMem with h' | h'
            · exact absurd h' h
            · exact h'
          have hbt : b ∈ t := by
            rcases List.mem_cons.mp hbMem with h' | h'
            · exact absurd h'.symm h
            · exact h'
          exact has a (List.mem_cons_self a t) b (List.mem_cons_of_mem _ hbt)
            (ha b hbt) (hb a hat₂)
      subst hab
      rw [ih t₂ hp.cons_inv ht ht₂
        (fun x hx y hy => has x (List.mem_cons_of_mem _ hx) y (List.mem_cons_of_mem _ hy))]

/-- The sort comparator is antisymmetric on key values drawn from an input
satisfying the no-collapse hypothesis. -/
theorem keyLE_antisymm_on (S : List JSVal) (sel : KeySel) (H : KeyStringsInj S sel)
    (a b : JSVal) (haS : ∃ r ∈ S, applySel sel r = a) (hbS : ∃ r ∈ S, applySel sel r = b)
    (h1 : keyLE a b = true) (h2 : keyLE b a = true) : a = b := by
  rw [keyLE_eq] at h1 h2
  by_cases ha : a = JSVal.undef
  · rw [if_pos ha, decide_eq_true_eq] at h1
    rw [ha, h1]
  · by_cases hb : b = JSVal.undef
    · rw [if_pos hb, decide_eq_true_eq] at h2
      exact absurd h2 ha
    · rw [if_neg ha, if_neg hb] at h1
      rw [if_neg hb, if_neg ha] at h2
      rcases haS with ⟨r1, hr1, hk1⟩
      rcases hbS with ⟨r2, hr2, hk2⟩
      subst hk1; subst hk2
      exact H r1 hr1 r2 hr2 (strLe_antisymm _ _ h1 h2)

/-- Flattening the normal-form result enumerates each accumulated group
exactly once: it is the concatenation of the groups along some permutation of
the sorted key list. -/
theorem flattenResult_eq (sel : KeySel) (S : List JSVal) (M : List JSVal)
    (hMstr : (M.map jsToString).Nodup) :
    ∃ κ : List JSVal, κ.Perm M ∧
      flattenResult (M.map (fun k => (jsToString k, grpOf sel S k))) =
        (κ.map (grpOf sel S)).flatten := by
  have hfst : (M.map (fun k => (jsToString k, grpOf sel S k))).map Prod.fst =
      M.map jsToString := by
    rw [List.map_map]; rfl
  refine ⟨(objKeys (M.map (fun k => (jsToString k, grpOf sel S k)))).map (keyOfString M),
    ?_, ?_⟩
  · have h3 := (objKeys_perm (M.map (fun k => (jsToString k, grpOf sel S k)))).map
      (keyOfString M)
    rw [hfst] at h3
    have h4 : (M.map jsToString).map (keyOfString M) = M := by
      rw [List.map_map]
      have hpt : ∀ k ∈ M, (keyOfString M ∘ jsToString) k = id k := by
        intro k hk
        simp only [Function.comp, id]
        unfold keyOfString
        rw [find?_string_self M hMstr k hk]
        rfl
      rw [List.map_congr_left hpt, List.map_id]
    rw [h4] at h3
    exact h3
  · unfold flattenResult
    rw [List.map_map]
    apply congrArg List.flatten
    apply List.map_congr_left
    intro s hs
    have hsM : s ∈ M.map jsToString := by
      have := (objKeys_perm (M.map (fun k => (jsToString k, grpOf sel S k)))).mem_iff.mp hs
      rw [hfst] at this
      exact this
    rcases List.mem_map.mp hsM with ⟨k, hkM, hks⟩
    have hfind : M.find? (fun k' => jsToString k' == s) = some k := by
      rw [← hks]
      exact find?_string_self M hMstr k hkM
    simp only [Function.comp]
    rw [alookup_map_pair, hfind]
    unfold keyOfString
    rw [hfind]
    rfl

/-- Records of the flattened blocks come from the original input. -/
theorem mem_flatten_blocks (sel : KeySel) (S : List JSVal) (κ : List JSVal) (r : JSVal)
    (hr : r ∈ (κ.map (grpOf sel S)).flatten) : r ∈ S := by
  rcases List.mem_flatten.mp hr with ⟨l, hl, hrl⟩
  rcases List.mem_map.mp hl with ⟨k', _, rfl⟩
  exact ((mem_grpOf sel S k' r).mp hrl).1

/-- The key set of the regrouped input is exactly the block index set. -/
theorem keys_of_flatten_blocks (sel : KeySel) (S : List JSVal) (κ : List JSVal)
    (hsub : ∀ k ∈ κ, ∃ r ∈ S, applySel sel r = k) (k : JSVal) :
    k ∈ (buildMap sel ((κ.map (grpOf sel S)).flatten)).map Prod.fst ↔ k ∈ κ := by
  rw [mem_keys_buildMap]
  constructor
  · rintro ⟨r, hr, rfl⟩
    rcases List.mem_flatten.mp hr with ⟨l, hl, hrl⟩
    rcases List.mem_map.mp hl with ⟨k', hk', rfl⟩
    rw [((mem_grpOf sel S k' r).mp hrl).2]
    exact hk'
  · intro hk
    rcases hsub k hk with ⟨r, hr, hkr⟩
    refine ⟨r, ?_, hkr⟩
    exact List.mem_flatten.mpr
      ⟨grpOf sel S k, List.mem_map_of_mem _ hk, (mem_grpOf sel S k r).mpr ⟨hr, hkr⟩⟩

/-- C7 (amended).  Under the no-collapse hypothesis, flattening the grouped
result (groups in the object's key enumeration order, records in stored
order) and grouping again with the same selector reproduces the result
exactly. -/
theorem groupBy_regroup (S : List JSVal) (sel : KeySel) (H : KeyStringsInj S sel) :
    groupBy (flattenResult (groupBy S sel)) sel = groupBy S sel := by
  have hKnd := keys_buildMap_nodup sel S
  have hKstr := keys_strings_nodup S sel H
  have hMstr : ((sortKeys ((buildMap sel S).map Prod.fst)).map jsToString).Nodup :=
    ((sortKeys_perm _).map jsToString).symm.nodup hKstr
  have hMnd : (sortKeys ((buildMap sel S).map Prod.fst)).Nodup :=
    (sortKeys_perm _).symm.nodup hKnd
  rcases flattenResult_eq sel S _ hMstr with ⟨κ, hκ, hT⟩
  rw [groupBy_normal S sel H, hT]
  have hκnd : κ.Nodup := hκ.symm.nodup hMnd
  have hκmem : ∀ k ∈ κ, ∃ r ∈ S, applySel sel r = k := by
    intro k hk
    have hkM := hκ.mem_iff.mp hk
    have hkK := (sortKeys_perm _).mem_iff.mp hkM
    exact (mem_keys_buildMap sel S k).mp hkK
  have hsubS : ∀ r ∈ (κ.map (grpOf sel S)).flatten, r ∈ S :=
    fun r hr => mem_flatten_blocks sel S κ r hr
  have HT : KeyStringsInj ((κ.map (grpOf sel S)).flatten) sel :=
    fun r1 h1 r2 h2 => H r1 (hsubS r1 h1) r2 (hsubS r2 h2)
  rw [groupBy_normal _ sel HT]
  have hKTnd := keys_buildMap_nodup sel ((κ.map (grpOf sel S)).flatten)
  have hKTperm : ((buildMap sel ((κ.map (grpOf sel S)).flatten)).map Prod.fst).Perm κ :=
    (List.perm_ext_iff_of_nodup hKTnd hκnd).mpr (keys_of_flatten_blocks sel S κ hκmem)
  have hKTM : ((buildMap sel ((κ.map (grpOf sel S)).flatten)).map Prod.fst).Perm
      (sortKeys ((buildMap sel S).map Prod.fst)) := hKTperm.trans hκ
  have hmemex : ∀ k ∈ sortKeys ((buildMap sel ((κ.map (grpOf sel S)).flatten)).map Prod.fst),
      ∃ r ∈ S, applySel sel r = k := by
    intro k hk
    have := (sortKeys_perm _).mem_iff.mp hk
    exact hκmem k (hKTperm.mem_iff.mp this)
  have heq : sortKeys ((buildMap sel ((κ.map (grpOf sel S)).flatten)).map Prod.fst) =
      sortKeys ((buildMap sel S).map Prod.fst) := by
    apply sorted_perm_eq _ _ ((sortKeys_perm _).trans hKTM)
    · exact sortKeys_sorted _
    · exact sortKeys_sorted _
    · intro a ha b hb h1 h2
      exact keyLE_antisymm_on S sel H a b (hmemex a ha) (hmemex b hb) h1 h2
  rw [heq]
  apply List.map_congr_left
  intro k hk
  have hkκ : k ∈ κ := hκ.mem_iff.mpr hk
  rw [grpOf_flatten sel S κ hκnd k hkκ]


/-- C7.  Regrouping is not idempotent in general: with keys "undefined"
(string), undefined and "zebra", the first result enumerates "undefined"
before "zebra" (the collision entry keeps the position of the string key,
while its records are overwritten by the undefined-keyed group, sorted last);
flattening and regrouping has only the keys undefined and "zebra" left, and
undefined now sorts after "zebra", so the entries come out in the other
order. -/
theorem groupBy_regroup_cex :
    groupBy (flattenResult (groupBy [qRec1, qRec2, qRec3] (.field (.str "a"))))
        (.field (.str "a")) ≠
      groupBy [qRec1, qRec2, qRec3] (.field (.str "a")) := by decide

/-- C7 witness: on the team scenario (string keys, no collision) regrouping
the flattened result reproduces the result exactly. -/
theorem groupBy_regroup_witness :
    groupBy (flattenResult (groupBy [recSteve, recJack, recCarol] (.field (.str "team"))))
        (.field (.str "team")) =
      groupBy [recSteve, recJack, recCarol] (.field (.str "team")) :=
  groupBy_regroup [recSteve, recJack, recCarol] (.field (.str "team")) (by decide)
